import Mathlib

/-!
The class template `DataProcessing::DataProcessor<T>` of
examples/code-editor/examples/cpp.cpp.

A shallow embedding of the class template and its two public member functions,
`transform` and `average`, followed by the properties proved about them.

Modelling choices.

* `std::vector<T>` is a `List T`; `push_back` appends at the end.
* `double` is IEEE 754 binary64 with the default rounding mode: a value is a finite
  rational, an infinity or a NaN, and every arithmetic operation computes the exact
  rational result and rounds it once to the nearest binary64 value, ties to even,
  overflowing to an infinity.  The two zeros compare equal in C++ and no operation
  of this program divides by a data value, so the sign of zero is not tracked.
* The implicit conversion of an element `val : T` in `sum += val` is a parameter
  `conv : T → Double` (the identity for `T = double`, `Double.ofInt` for integer
  element types).
* A range-based `for (const auto& item : data)` is its standard desugaring
  `for (auto it = begin; it != end; ++it) { const auto& item = *it; ... }`,
  with an iterator modelled as a position and `*it` as a *checked* read.
* Reading outside the vector and dividing by a zero size are explicit faults, so
  that "the code never does this" is a theorem and not a convention.
-/

namespace DataProcessing

/-- The run-time faults tracked by the embedding. -/
inductive Fault where
  | outOfBounds
  | divByZero
  deriving DecidableEq, Repr

/-! ## IEEE 754 binary64 -/

/-- Round a non-negative rational to the nearest natural number, ties to even. -/
def roundHalfEven (t : ℚ) : ℕ :=
  if t - (⌊t⌋₊ : ℚ) < 1 / 2 then ⌊t⌋₊
  else if 1 / 2 < t - (⌊t⌋₊ : ℚ) then ⌊t⌋₊ + 1
  else if ⌊t⌋₊ % 2 = 0 then ⌊t⌋₊ else ⌊t⌋₊ + 1

/-- The number of times `n` can be halved before it drops below `2`, which is
`⌊log₂ n⌋` for `n ≥ 1`; the first argument bounds the number of halvings. -/
def halvings : ℕ → ℕ → ℕ
  | 0, _ => 0
  | fuel + 1, n => if 2 ≤ n then halvings fuel (n / 2) + 1 else 0

/-- The binary logarithm `⌊log₂ n⌋` of a positive natural number (`n` halvings are
always enough). -/
def natLog2 (n : ℕ) : ℕ := halvings n n

/-- The binary exponent of a positive rational `a`: the integer `e` with
`2 ^ e ≤ a < 2 ^ (e + 1)`.  The difference of the logarithms of numerator and
denominator is either `e` or `e + 1`, and one comparison decides. -/
def ilog2 (a : ℚ) : ℤ :=
  if (2 : ℚ) ^ ((natLog2 a.num.natAbs : ℤ) - (natLog2 a.den : ℤ)) ≤ a then
    (natLog2 a.num.natAbs : ℤ) - (natLog2 a.den : ℤ)
  else (natLog2 a.num.natAbs : ℤ) - (natLog2 a.den : ℤ) - 1

/-- The binary exponent used to round a positive rational `a`: its own exponent,
but never below the exponent `-1022` of the smallest normal number (below it the
values are subnormal and share one spacing). -/
def binade (a : ℚ) : ℤ := max (ilog2 a) (-1022)

/-- The spacing of binary64 values around a positive rational `a`: 53 significant
bits, so `2 ^ (e - 52)` in the binade of exponent `e`. -/
def ulp (a : ℚ) : ℚ := 2 ^ (binade a - 52)

/-- Round a non-negative rational to the nearest multiple of the spacing at its
magnitude, ties to the even multiple (exponent range unbounded above). -/
def roundAbs (a : ℚ) : ℚ := (roundHalfEven (a / ulp a) : ℚ) * ulp a

/-- Round to nearest, ties to even, symmetric in the sign. -/
def roundNearestEven (q : ℚ) : ℚ :=
  if q < 0 then -roundAbs (-q) else roundAbs q

/-- A value of type `double`: a finite number (carried as the rational it denotes),
an infinity with its sign, or a NaN. -/
inductive Double where
  | fin (q : ℚ)
  | inf (negative : Bool)
  | nan
  deriving DecidableEq, Repr

/-- The binary64 value of an exact rational result: rounded to nearest-even, and an
infinity when the rounded magnitude reaches `2 ^ 1024`. -/
def Double.ofRat (q : ℚ) : Double :=
  if (2 : ℚ) ^ 1024 ≤ |roundNearestEven q| then Double.inf (decide (q < 0))
  else Double.fin (roundNearestEven q)

/-- Conversion of an integer value to `double`. -/
def Double.ofInt (z : ℤ) : Double := Double.ofRat (z : ℚ)

/-- Conversion of a `std::size_t` value to `double`. -/
def Double.ofNat (n : ℕ) : Double := Double.ofRat (n : ℚ)

/-- Addition of doubles (`+`, `+=`). -/
def Double.add : Double → Double → Double
  | Double.fin a, Double.fin b => Double.ofRat (a + b)
  | Double.fin _, Double.inf s => Double.inf s
  | Double.inf s, Double.fin _ => Double.inf s
  | Double.inf s, Double.inf t => if s = t then Double.inf s else Double.nan
  | _, _ => Double.nan

/-- Multiplication of doubles (`*`). -/
def Double.mul : Double → Double → Double
  | Double.fin a, Double.fin b => Double.ofRat (a * b)
  | Double.fin a, Double.inf s =>
    if a = 0 then Double.nan else Double.inf (xor s (decide (a < 0)))
  | Double.inf s, Double.fin b =>
    if b = 0 then Double.nan else Double.inf (xor s (decide (b < 0)))
  | Double.inf s, Double.inf t => Double.inf (xor s t)
  | _, _ => Double.nan

/-- Division of doubles (`/`).  A zero divisor is taken to be `+0.0`, the only zero
a converted size can be. -/
def Double.div : Double → Double → Double
  | Double.fin a, Double.fin b =>
    if b = 0 then (if a = 0 then Double.nan else Double.inf (decide (a < 0)))
    else Double.ofRat (a / b)
  | Double.fin _, Double.inf _ => Double.fin 0
  | Double.inf s, Double.fin b => Double.inf (xor s (decide (b < 0)))
  | _, _ => Double.nan

/-! ## The class -/

/-- The class `DataProcessor<T>` with its one private member `std::vector<T> data`.
The structure constructor `DataProcessor.mk input` is the C++ constructor
`DataProcessor(const std::vector<T>& input) : data(input) {}`, which copies the
input into `data`. -/
structure DataProcessor (T : Type) where
  data : List T
  deriving DecidableEq, Repr

/-- The member `std::vector::push_back`: append one element at the end. -/
def push_back {U : Type} (v : List U) (x : U) : List U := v ++ [x]

/-- The range-based `for` statement over `range`, started at iterator position `it`
with loop state `acc`: while `it != range.end()`, read `*it` (a fault when the
position is not an element), run the body, and advance. -/
def rangeFor {T S : Type} (range : List T) (body : S → T → S) (it : Nat) (acc : S) :
    Except Fault S :=
  if it ≠ range.length then
    if h : it < range.length then
      rangeFor range body (it + 1) (body acc range[it])
    else
      Except.error Fault.outOfBounds
  else
    Except.ok acc
termination_by range.length - it

/-- The member `auto transform(auto&& func) const`.  The operand of
`decltype(func(data[0]))` is an unevaluated operand: it only fixes the element
type `U` of `result`.  At run time `result` starts empty and the range-based loop
pushes `func(item)` for each `item`. -/
def DataProcessor.transform {T U : Type} (self : DataProcessor T) (func : T → U) :
    Except Fault (List U) :=
  rangeFor self.data (fun result item => push_back result (func item)) 0 []

/-- The division `sum / data.size()`: the size is converted to `double` and the
quotient is rounded; a zero size is flagged as a fault. -/
def divBySize (sum : Double) (size : Nat) : Except Fault Double :=
  if size = 0 then Except.error Fault.divByZero
  else Except.ok (Double.div sum (Double.ofNat size))

/-- The member `auto average() const -> double`: the early return `0.0` on an
empty vector, otherwise `double sum = 0`, the loop `sum += val` (each element
converted to `double` by `conv`), and `sum / data.size()`. -/
def DataProcessor.average {T : Type} (conv : T → Double) (self : DataProcessor T) :
    Except Fault Double :=
  if self.data.isEmpty then Except.ok (Double.fin 0)
  else
    match rangeFor self.data (fun sum val => Double.add sum (conv val)) 0 (Double.fin 0) with
    | Except.error e => Except.error e
    | Except.ok sum => divBySize sum self.data.length

/-! ## The range-based loop -/

/-- From any position inside the range, the loop finishes without a fault and its
final state is the left fold of the body over the remaining elements. -/
theorem rangeFor_eq_foldl {T S : Type} (range : List T) (body : S → T → S) :
    ∀ (n it : Nat) (acc : S), it + n = range.length →
      rangeFor range body it acc = Except.ok ((range.drop it).foldl body acc) := by
  intro n
  induction n with
  | zero =>
    intro it acc h
    have hit : it = range.length := by omega
    subst hit
    rw [rangeFor]
    simp
  | succ k ih =>
    intro it acc h
    have hlt : it < range.length := by omega
    rw [rangeFor]
    have hne : it ≠ range.length := by omega
    simp only [hne, ne_eq, not_false_eq_true, if_true, hlt, dite_true]
    rw [ih (it + 1) _ (by omega)]
    congr 1
    rw [List.drop_eq_getElem_cons hlt]
    rfl

/-- The whole loop, from `begin()`. -/
theorem rangeFor_begin {T S : Type} (range : List T) (body : S → T → S) (acc : S) :
    rangeFor range body 0 acc = Except.ok (range.foldl body acc) := by
  have h := rangeFor_eq_foldl range body range.length 0 acc (by omega)
  simpa using h

theorem foldl_push_back {T U : Type} (func : T → U) (l : List T) (acc : List U) :
    l.foldl (fun result item => push_back result (func item)) acc = acc ++ l.map func := by
  induction l generalizing acc with
  | nil => simp
  | cons x xs ih =>
    rw [List.foldl_cons, ih]
    simp [push_back]

/-- Helper: `transform` finishes and yields the list map of `func`. -/
theorem transform_eq_map {T U : Type} (data : List T) (func : T → U) :
    (DataProcessor.mk data).transform func = Except.ok (data.map func) := by
  unfold DataProcessor.transform
  rw [rangeFor_begin, foldl_push_back]
  simp

/-- Helper: `average` as a fold, once the loop is known to finish. -/
theorem average_eq_fold {T : Type} (conv : T → Double) (data : List T) :
    (DataProcessor.mk data).average conv =
      if data.isEmpty then Except.ok (Double.fin 0)
      else divBySize (data.foldl (fun sum val => Double.add sum (conv val)) (Double.fin 0))
        data.length := by
  unfold DataProcessor.average
  simp only [rangeFor_begin]

/-- Helper: on a non-empty vector `average` finishes with the rounded quotient of
the accumulated sum by the converted size. -/
theorem average_of_ne_nil {T : Type} (conv : T → Double) (data : List T) (h : data ≠ []) :
    (DataProcessor.mk data).average conv =
      Except.ok (Double.div
        (data.foldl (fun sum val => Double.add sum (conv val)) (Double.fin 0))
        (Double.ofNat data.length)) := by
  rw [average_eq_fold]
  have hemp : data.isEmpty = false := by
    cases data with
    | nil => exact absurd rfl h
    | cons x xs => rfl
  have hlen : data.length ≠ 0 := by
    intro h0
    exact h (List.length_eq_zero.mp h0)
  simp [hemp, divBySize, hlen]

/-- Helper: on the empty vector `average` takes the early return. -/
theorem average_nil {T : Type} (conv : T → Double) :
    (DataProcessor.mk ([] : List T)).average conv = Except.ok (Double.fin 0) := by
  unfold DataProcessor.average
  rfl

/-- Helper: when every element converts exactly and every running sum is a binary64
value, the accumulation loop performs no rounding. -/
theorem foldl_add_exact {T : Type} (conv : T → Double) (v : T → ℚ) (l : List T)
    (hconv : ∀ x ∈ l, conv x = Double.fin (v x))
    (hsum : ∀ k : ℕ, k ≤ l.length →
      Double.ofRat (((l.take k).map v).sum) = Double.fin (((l.take k).map v).sum)) :
    l.foldl (fun sum val => Double.add sum (conv val)) (Double.fin 0) =
      Double.fin ((l.map v).sum) := by
  induction l using List.reverseRecOn with
  | nil => simp
  | append_singleton init x ih =>
    have hinit : init.foldl (fun sum val => Double.add sum (conv val)) (Double.fin 0) =
        Double.fin ((init.map v).sum) := by
      apply ih
      · intro y hy
        exact hconv y (List.mem_append_left _ hy)
      · intro k hk
        have := hsum k (by simp; omega)
        rwa [List.take_append_of_le_length hk] at this
    rw [List.foldl_append, hinit]
    simp only [List.foldl_cons, List.foldl_nil]
    rw [hconv x (by simp)]
    have hfull := hsum (init ++ [x]).length (le_refl _)
    rw [List.take_length] at hfull
    simp only [Double.add]
    simpa using hfull

/-! ## Rounding to nearest, ties to even -/

theorem roundHalfEven_natCast (n : ℕ) : roundHalfEven (n : ℚ) = n := by
  unfold roundHalfEven
  simp

theorem roundHalfEven_ge_floor (t : ℚ) : ⌊t⌋₊ ≤ roundHalfEven t := by
  unfold roundHalfEven
  split_ifs <;> omega

theorem roundHalfEven_le_floor_succ (t : ℚ) : roundHalfEven t ≤ ⌊t⌋₊ + 1 := by
  unfold roundHalfEven
  split_ifs <;> omega

theorem roundHalfEven_mono {s t : ℚ} (h : s ≤ t) : roundHalfEven s ≤ roundHalfEven t := by
  have hfl : ⌊s⌋₊ ≤ ⌊t⌋₊ := Nat.floor_mono h
  rcases Nat.lt_or_ge ⌊s⌋₊ ⌊t⌋₊ with hlt | hge
  · calc roundHalfEven s ≤ ⌊s⌋₊ + 1 := roundHalfEven_le_floor_succ s
      _ ≤ ⌊t⌋₊ := hlt
      _ ≤ roundHalfEven t := roundHalfEven_ge_floor t
  · have heq : ⌊s⌋₊ = ⌊t⌋₊ := le_antisymm hfl hge
    unfold roundHalfEven
    rw [heq]
    split_ifs <;> first | omega | (exfalso; linarith)

theorem halvings_eq_log2 : ∀ (fuel n : ℕ), n ≤ fuel → halvings fuel n = Nat.log2 n := by
  intro fuel
  induction fuel with
  | zero =>
    intro n hn
    have h0 : n = 0 := by omega
    subst h0
    rw [Nat.log2]
    simp [halvings]
  | succ k ih =>
    intro n hn
    rw [Nat.log2]
    simp only [halvings]
    by_cases h2 : 2 ≤ n
    · have hk : n / 2 ≤ k := by omega
      simp only [h2, if_true, ge_iff_le, ih (n / 2) hk]
    · simp only [h2, if_false, ge_iff_le]

theorem natLog2_eq (n : ℕ) : natLog2 n = Nat.log2 n :=
  halvings_eq_log2 n n (le_refl n)

/-- The computed exponent brackets the value: `2 ^ e ≤ a < 2 ^ (e + 1)`. -/
theorem ilog2_spec {a : ℚ} (ha : 0 < a) :
    (2 : ℚ) ^ ilog2 a ≤ a ∧ a < (2 : ℚ) ^ (ilog2 a + 1) := by
  have hnum : 0 < a.num := Rat.num_pos.mpr ha
  have hn0 : a.num.natAbs ≠ 0 := by
    intro h
    have := Int.natAbs_eq_zero.mp h
    omega
  have hd0 : a.den ≠ 0 := a.den_nz
  have hdpos : (0 : ℚ) < (a.den : ℚ) := by exact_mod_cast Nat.pos_of_ne_zero hd0
  have hnq : ((a.num.natAbs : ℕ) : ℚ) = (a.num : ℚ) := by
    have hz : ((a.num.natAbs : ℕ) : ℤ) = a.num := Int.natAbs_of_nonneg hnum.le
    calc ((a.num.natAbs : ℕ) : ℚ) = (((a.num.natAbs : ℕ) : ℤ) : ℚ) := (Int.cast_natCast _).symm
      _ = (a.num : ℚ) := by rw [hz]
  have ha_eq : a = ((a.num.natAbs : ℕ) : ℚ) / (a.den : ℚ) := by
    rw [hnq]
    exact (Rat.num_div_den a).symm
  have hn1 : ((2 : ℚ) ^ (natLog2 a.num.natAbs : ℤ)) ≤ ((a.num.natAbs : ℕ) : ℚ) := by
    rw [zpow_natCast, natLog2_eq]
    exact_mod_cast Nat.log2_self_le hn0
  have hn2 : ((a.num.natAbs : ℕ) : ℚ) < (2 : ℚ) ^ ((natLog2 a.num.natAbs : ℤ) + 1) := by
    have h := @Nat.lt_log2_self a.num.natAbs
    have hc : ((natLog2 a.num.natAbs : ℤ) + 1) = ((a.num.natAbs.log2 + 1 : ℕ) : ℤ) := by
      rw [natLog2_eq]
      push_cast
      ring
    rw [hc, zpow_natCast]
    exact_mod_cast h
  have hd1 : ((2 : ℚ) ^ (natLog2 a.den : ℤ)) ≤ ((a.den : ℕ) : ℚ) := by
    rw [zpow_natCast, natLog2_eq]
    exact_mod_cast Nat.log2_self_le hd0
  have hd2 : ((a.den : ℕ) : ℚ) < (2 : ℚ) ^ ((natLog2 a.den : ℤ) + 1) := by
    have h := @Nat.lt_log2_self a.den
    have hc : ((natLog2 a.den : ℤ) + 1) = ((a.den.log2 + 1 : ℕ) : ℤ) := by
      rw [natLog2_eq]
      push_cast
      ring
    rw [hc, zpow_natCast]
    exact_mod_cast h
  have h2 : (2 : ℚ) ≠ 0 := by norm_num
  have hup : a < (2 : ℚ) ^ ((natLog2 a.num.natAbs : ℤ) - (natLog2 a.den : ℤ) + 1) := by
    have hsplit : (2 : ℚ) ^ ((natLog2 a.num.natAbs : ℤ) - (natLog2 a.den : ℤ) + 1) =
        (2 : ℚ) ^ ((natLog2 a.num.natAbs : ℤ) + 1) / (2 : ℚ) ^ (natLog2 a.den : ℤ) := by
      rw [← zpow_sub₀ h2]
      congr 1
      ring
    rw [hsplit]
    have hpd : (0 : ℚ) < (2 : ℚ) ^ (natLog2 a.den : ℤ) := by positivity
    calc a = ((a.num.natAbs : ℕ) : ℚ) / (a.den : ℚ) := ha_eq
      _ < (2 : ℚ) ^ ((natLog2 a.num.natAbs : ℤ) + 1) / (a.den : ℚ) :=
          div_lt_div_of_pos_right hn2 hdpos
      _ ≤ (2 : ℚ) ^ ((natLog2 a.num.natAbs : ℤ) + 1) / (2 : ℚ) ^ (natLog2 a.den : ℤ) :=
          div_le_div_of_nonneg_left (by positivity) hpd hd1
  have hlow : (2 : ℚ) ^ ((natLog2 a.num.natAbs : ℤ) - (natLog2 a.den : ℤ) - 1) ≤ a := by
    have hsplit : (2 : ℚ) ^ ((natLog2 a.num.natAbs : ℤ) - (natLog2 a.den : ℤ) - 1) =
        (2 : ℚ) ^ (natLog2 a.num.natAbs : ℤ) / (2 : ℚ) ^ ((natLog2 a.den : ℤ) + 1) := by
      rw [← zpow_sub₀ h2]
      congr 1
      ring
    rw [hsplit]
    calc (2 : ℚ) ^ (natLog2 a.num.natAbs : ℤ) / (2 : ℚ) ^ ((natLog2 a.den : ℤ) + 1)
        ≤ (2 : ℚ) ^ (natLog2 a.num.natAbs : ℤ) / (a.den : ℚ) :=
          div_le_div_of_nonneg_left (by positivity) hdpos hd2.le
      _ ≤ ((a.num.natAbs : ℕ) : ℚ) / (a.den : ℚ) :=
          div_le_div_of_nonneg_right hn1 hdpos.le
      _ = a := ha_eq.symm
  unfold ilog2
  split_ifs with hc
  · exact ⟨hc, hup⟩
  · refine ⟨hlow, ?_⟩
    have hr : (natLog2 a.num.natAbs : ℤ) - (natLog2 a.den : ℤ) - 1 + 1 =
        (natLog2 a.num.natAbs : ℤ) - (natLog2 a.den : ℤ) := by ring
    rw [hr]
    exact not_le.mp hc

theorem ilog2_mono {x y : ℚ} (hx : 0 < x) (h : x ≤ y) : ilog2 x ≤ ilog2 y := by
  by_contra hlt
  have hlt2 : ilog2 y + 1 ≤ ilog2 x := by omega
  have hy : 0 < y := lt_of_lt_of_le hx h
  have h1 := (ilog2_spec hx).1
  have h2 := (ilog2_spec hy).2
  have h3 : (2 : ℚ) ^ (ilog2 y + 1) ≤ (2 : ℚ) ^ ilog2 x :=
    zpow_le_zpow_right₀ (by norm_num) hlt2
  linarith

theorem ulp_pos (a : ℚ) : 0 < ulp a := by
  unfold ulp
  positivity

theorem roundAbs_nonneg (a : ℚ) : 0 ≤ roundAbs a := by
  unfold roundAbs
  have := ulp_pos a
  positivity

theorem roundAbs_zero : roundAbs 0 = 0 := by
  unfold roundAbs
  simp [roundHalfEven]

theorem binade_mono {x y : ℚ} (hx : 0 < x) (h : x ≤ y) : binade x ≤ binade y := by
  unfold binade
  exact max_le_max (ilog2_mono hx h) (le_refl _)

/-- A positive value rounds to at most the upper end of its binade. -/
theorem roundAbs_le_binade_top (x : ℚ) :
    roundAbs x ≤ (2 : ℚ) ^ (binade x + 1) := by
  have hu := ulp_pos x
  have hlt : x < (2 : ℚ) ^ (binade x + 1) := by
    rcases le_or_lt x 0 with hx0 | hxpos
    · have hp : (0 : ℚ) < (2 : ℚ) ^ (binade x + 1) := by positivity
      linarith
    · have h1 : x < (2 : ℚ) ^ (ilog2 x + 1) := (ilog2_spec hxpos).2
      have h2 : (2 : ℚ) ^ (ilog2 x + 1) ≤ (2 : ℚ) ^ (binade x + 1) := by
        apply zpow_le_zpow_right₀ (by norm_num)
        have : ilog2 x ≤ binade x := le_max_left _ _
        omega
      exact lt_of_lt_of_le h1 h2
  have hsplit : (2 : ℚ) ^ (binade x + 1) = ((2 ^ 53 : ℕ) : ℚ) * ulp x := by
    unfold ulp
    have hpow : ((2 ^ 53 : ℕ) : ℚ) = (2 : ℚ) ^ (53 : ℤ) := by norm_num
    rw [hpow, ← zpow_add₀ (by norm_num : (2 : ℚ) ≠ 0)]
    congr 1
    ring
  have hq : x / ulp x ≤ ((2 ^ 53 : ℕ) : ℚ) := by
    rw [div_le_iff₀ hu, ← hsplit]
    exact hlt.le
  have hr : roundHalfEven (x / ulp x) ≤ 2 ^ 53 := by
    have := roundHalfEven_mono hq
    rwa [roundHalfEven_natCast] at this
  unfold roundAbs
  rw [hsplit]
  apply mul_le_mul_of_nonneg_right _ hu.le
  exact_mod_cast hr

/-- A positive value in a normal binade rounds to at least the lower end of it. -/
theorem binade_bot_le_roundAbs {y : ℚ} (hy : 0 < y) (hn : -1022 < binade y) :
    (2 : ℚ) ^ binade y ≤ roundAbs y := by
  have hu := ulp_pos y
  have hlog : binade y = ilog2 y := by
    unfold binade at hn ⊢
    rcases le_total (ilog2 y) (-1022) with hle | hge
    · rw [max_eq_right hle] at hn
      omega
    · exact max_eq_left hge
  have hle : (2 : ℚ) ^ binade y ≤ y := by
    rw [hlog]
    exact (ilog2_spec hy).1
  have hsplit : (2 : ℚ) ^ binade y = ((2 ^ 52 : ℕ) : ℚ) * ulp y := by
    unfold ulp
    have hpow : ((2 ^ 52 : ℕ) : ℚ) = (2 : ℚ) ^ (52 : ℤ) := by norm_num
    rw [hpow, ← zpow_add₀ (by norm_num : (2 : ℚ) ≠ 0)]
    congr 1
    ring
  have hq : ((2 ^ 52 : ℕ) : ℚ) ≤ y / ulp y := by
    rw [le_div_iff₀ hu, ← hsplit]
    exact hle
  have hr : 2 ^ 52 ≤ roundHalfEven (y / ulp y) := by
    have := roundHalfEven_mono hq
    rwa [roundHalfEven_natCast] at this
  unfold roundAbs
  rw [hsplit]
  apply mul_le_mul_of_nonneg_right _ hu.le
  exact_mod_cast hr

theorem roundAbs_mono {x y : ℚ} (hx : 0 ≤ x) (h : x ≤ y) : roundAbs x ≤ roundAbs y := by
  rcases eq_or_lt_of_le hx with h0 | hpos
  · rw [← h0, roundAbs_zero]
    exact roundAbs_nonneg y
  · have hy : 0 < y := lt_of_lt_of_le hpos h
    have hb := binade_mono hpos h
    rcases eq_or_lt_of_le hb with heq | hlt
    · have hu : ulp x = ulp y := by
        unfold ulp
        rw [heq]
      unfold roundAbs
      rw [hu]
      apply mul_le_mul_of_nonneg_right _ (ulp_pos y).le
      have hq : x / ulp y ≤ y / ulp y := div_le_div_of_nonneg_right h (ulp_pos y).le
      exact_mod_cast roundHalfEven_mono hq
    · have hnorm : -1022 < binade y := by
        have : -1022 ≤ binade x := le_max_right _ _
        omega
      calc roundAbs x ≤ (2 : ℚ) ^ (binade x + 1) := roundAbs_le_binade_top x
        _ ≤ (2 : ℚ) ^ binade y := zpow_le_zpow_right₀ (by norm_num) (by omega)
        _ ≤ roundAbs y := binade_bot_le_roundAbs hy hnorm

theorem roundNearestEven_mono {x y : ℚ} (h : x ≤ y) :
    roundNearestEven x ≤ roundNearestEven y := by
  unfold roundNearestEven
  by_cases hx : x < 0
  · by_cases hy : y < 0
    · simp only [hx, hy, if_true]
      have hneg : roundAbs (-y) ≤ roundAbs (-x) :=
        roundAbs_mono (by linarith : (0 : ℚ) ≤ -y) (by linarith : -y ≤ -x)
      linarith
    · simp only [hx, hy, if_true, if_false]
      have h1 := roundAbs_nonneg (-x)
      have h2 := roundAbs_nonneg y
      linarith
  · have hy : ¬ y < 0 := by
      intro hy
      exact hx (lt_of_le_of_lt h hy)
    simp only [hx, hy, if_false]
    exact roundAbs_mono (not_lt.mp hx) h

/-- A rational is a finite binary64 value exactly when rounding leaves it unchanged
and it is below the overflow threshold. -/
theorem ofRat_eq_fin_iff (q : ℚ) :
    Double.ofRat q = Double.fin q ↔ roundNearestEven q = q ∧ |q| < (2 : ℚ) ^ 1024 := by
  unfold Double.ofRat
  constructor
  · intro h
    split_ifs at h with hov
    · have hr : roundNearestEven q = q := by
        injection h
      refine ⟨hr, ?_⟩
      rw [hr] at hov
      exact not_le.mp hov
  · rintro ⟨hr, hlt⟩
    rw [hr, if_neg (not_le.mpr hlt)]

/-- The rounding of a rational lying between two binary64 values is a finite value
between them. -/
theorem ofRat_between {lo hi q : ℚ} (hlo : Double.ofRat lo = Double.fin lo)
    (hhi : Double.ofRat hi = Double.fin hi) (h1 : lo ≤ q) (h2 : q ≤ hi) :
    Double.ofRat q = Double.fin (roundNearestEven q) ∧
      lo ≤ roundNearestEven q ∧ roundNearestEven q ≤ hi := by
  obtain ⟨rlo, blo⟩ := (ofRat_eq_fin_iff lo).mp hlo
  obtain ⟨rhi, bhi⟩ := (ofRat_eq_fin_iff hi).mp hhi
  have m1 : lo ≤ roundNearestEven q := by
    have := roundNearestEven_mono h1
    rwa [rlo] at this
  have m2 : roundNearestEven q ≤ hi := by
    have := roundNearestEven_mono h2
    rwa [rhi] at this
  refine ⟨?_, m1, m2⟩
  unfold Double.ofRat
  have hb : |roundNearestEven q| < (2 : ℚ) ^ 1024 := by
    rw [abs_lt] at blo bhi ⊢
    constructor
    · linarith [blo.1]
    · linarith [bhi.2]
  rw [if_neg (not_le.mpr hb)]

/-- Helper: the mean of rationals is bounded by any lower and upper bound of them. -/
theorem mean_bounds (data : List ℚ) (h : data ≠ []) (lo hi : ℚ)
    (hlo : ∀ x ∈ data, lo ≤ x) (hhi : ∀ x ∈ data, x ≤ hi) :
    lo ≤ data.sum / (data.length : ℚ) ∧ data.sum / (data.length : ℚ) ≤ hi := by
  have hpos : (0 : ℚ) < (data.length : ℚ) := by
    have : 0 < data.length := List.length_pos.mpr h
    exact_mod_cast this
  have h1 : data.length • lo ≤ data.sum := List.card_nsmul_le_sum data lo hlo
  have h2 : data.sum ≤ data.length • hi := List.sum_le_card_nsmul data hi hhi
  rw [nsmul_eq_mul] at h1 h2
  constructor
  · rw [le_div_iff₀ hpos]
    linarith
  · rw [div_le_iff₀ hpos]
    linarith

/-- Helper: when the conversions, the running sums and the size are exact, `average`
on a non-empty vector is the exact mean rounded once. -/
theorem average_of_exact_sums {T : Type} (conv : T → Double) (v : T → ℚ) (data : List T)
    (h : data ≠ [])
    (hconv : ∀ x ∈ data, conv x = Double.fin (v x))
    (hsum : ∀ k : ℕ, k ≤ data.length →
      Double.ofRat (((data.take k).map v).sum) = Double.fin (((data.take k).map v).sum))
    (hsize : Double.ofNat data.length = Double.fin (data.length : ℚ)) :
    (DataProcessor.mk data).average conv =
      Except.ok (Double.ofRat ((data.map v).sum / (data.length : ℚ))) := by
  rw [average_of_ne_nil conv data h, foldl_add_exact conv v data hconv hsum, hsize]
  have hlen : (data.length : ℚ) ≠ 0 := by
    have : data.length ≠ 0 := fun h0 => h (List.length_eq_zero.mp h0)
    exact_mod_cast this
  simp only [Double.div, hlen, if_false]

/-- Helper: the sum of the affine images. -/
theorem sum_map_affine {T : Type} (v : T → ℚ) (a b : ℚ) (l : List T) :
    (l.map (fun x => a * v x + b)).sum = a * (l.map v).sum + (l.length : ℚ) * b := by
  induction l with
  | nil => simp
  | cons x xs ih =>
    simp only [List.map_cons, List.sum_cons, List.length_cons, ih]
    push_cast
    ring

/-! ## Properties of `transform` and `average` -/

/-- C1: for every stored vector `data` and every `func`, `transform` returns a
vector that is the list map of `func` over `data`: it has the length of `data`, its
`i`-th element is `func (data[i])` at every index (and there is none beyond), and
it is empty when `data` is empty. -/
theorem transform_is_map {T U : Type} (data : List T) (func : T → U) :
    ∃ result : List U,
      (DataProcessor.mk data).transform func = Except.ok result ∧
      result = data.map func ∧
      result.length = data.length ∧
      (∀ i : Nat, result[i]? = (data[i]?).map func) ∧
      (DataProcessor.mk ([] : List T)).transform func = Except.ok [] := by
  refine ⟨data.map func, transform_eq_map data func, rfl, ?_, ?_, ?_⟩
  · simp
  · intro i
    simp
  · exact transform_eq_map [] func

/-- C2, as stated, fails: with `int` elements `{1, 2, 2}` the sum `5` is exact but
the quotient `5/3` is not a binary64 value, and `average` returns the nearest one;
with `long long` element `2^53 + 1` the conversion already rounds; with `double`
elements `{1e16, 1, -1e16}` the running sum absorbs the `1` and `average` returns
`0` although the mean is `1/3`. -/
theorem average_exact_mean_counterexample :
    (DataProcessor.average Double.ofInt (DataProcessor.mk [1, 2, 2]) =
        Except.ok (Double.fin (7505999378950827 / 4503599627370496)) ∧
      (7505999378950827 / 4503599627370496 : ℚ) ≠ ((1 + 2 + 2 : ℤ) : ℚ) / 3) ∧
    (DataProcessor.average Double.ofInt (DataProcessor.mk [9007199254740993]) =
        Except.ok (Double.fin 9007199254740992) ∧
      (9007199254740992 : ℚ) ≠ ((9007199254740993 : ℤ) : ℚ) / 1) ∧
    (DataProcessor.average (fun d : Double => d)
        (DataProcessor.mk [Double.ofRat (10 ^ 16), Double.ofRat 1, Double.ofRat (-10 ^ 16)]) =
        Except.ok (Double.fin 0) ∧
      Double.ofRat (10 ^ 16) = Double.fin (10 ^ 16) ∧
      Double.ofRat 1 = Double.fin 1 ∧
      Double.ofRat (-10 ^ 16) = Double.fin (-10 ^ 16) ∧
      (0 : ℚ) ≠ (10 ^ 16 + 1 + -10 ^ 16) / 3) := by
  refine ⟨⟨?_, by norm_num⟩, ⟨?_, by norm_num⟩, ?_, by decide!, by decide!, by decide!,
    by norm_num⟩
  · rw [average_of_ne_nil _ _ (by decide)]
    exact congrArg Except.ok (by decide!)
  · rw [average_of_ne_nil _ _ (by decide)]
    exact congrArg Except.ok (by decide!)
  · rw [average_of_ne_nil _ _ (by simp)]
    exact congrArg Except.ok (by decide!)

/-- C2, amended: for every non-empty stored vector whose element conversions,
running sums and size are exact in binary64, `average` returns the arithmetic mean
(sum of the elements divided by their number) rounded once to the nearest binary64
value, hence the mean itself whenever that is a binary64 value; the division is
fractional, with no integer truncation for an integer element type. -/
theorem average_is_rounded_mean {T : Type} (conv : T → Double) (v : T → ℚ) (data : List T)
    (h : data ≠ [])
    (hconv : ∀ x ∈ data, conv x = Double.fin (v x))
    (hsum : ∀ k : ℕ, k ≤ data.length →
      Double.ofRat (((data.take k).map v).sum) = Double.fin (((data.take k).map v).sum))
    (hsize : Double.ofNat data.length = Double.fin (data.length : ℚ)) :
    (DataProcessor.mk data).average conv =
        Except.ok (Double.ofRat ((data.map v).sum / (data.length : ℚ))) ∧
      (Double.ofRat ((data.map v).sum / (data.length : ℚ)) =
          Double.fin ((data.map v).sum / (data.length : ℚ)) →
        (DataProcessor.mk data).average conv =
          Except.ok (Double.fin ((data.map v).sum / (data.length : ℚ)))) := by
  have hav := average_of_exact_sums conv v data h hconv hsum hsize
  refine ⟨hav, ?_⟩
  intro hmean
  rw [hav, hmean]

/-- Instance of amended C2 at the `int` vector `[1, 2]`: the result is `3/2`, not `1`. -/
theorem average_is_rounded_mean_witness :
    ([1, 2] : List ℤ) ≠ [] ∧
      DataProcessor.average Double.ofInt (DataProcessor.mk [1, 2]) =
        Except.ok (Double.fin (3 / 2)) ∧
      (3 / 2 : ℚ) ≠ 1 := by
  refine ⟨by decide, ?_, by norm_num⟩
  have hw := (average_is_rounded_mean Double.ofInt (fun z : ℤ => (z : ℚ)) [1, 2]
    (by decide) (by decide!) (by decide!) (by decide!)).2
  have hmean : ((([1, 2] : List ℤ).map (fun z : ℤ => (z : ℚ))).sum /
      ((([1, 2] : List ℤ).length : ℕ) : ℚ)) = 3 / 2 := by norm_num
  rw [hmean] at hw
  exact hw (by decide!)

/-- C4: on the empty stored vector `average` returns exactly `0` through the early
return; the division of the zero sum by the zero size, which is a fault, is not
what produces the result. -/
theorem average_empty_is_zero {T : Type} (conv : T → Double) :
    (DataProcessor.mk ([] : List T)).average conv = Except.ok (Double.fin 0) ∧
      divBySize (Double.fin 0) (([] : List T).length) = Except.error Fault.divByZero := by
  refine ⟨average_nil conv, ?_⟩
  simp [divBySize]

/-- C5: both public operations are total on every stored vector, the empty one
included: `average` and `transform` always return a value, so neither the division
by a zero size nor a read outside the vector is ever reached.  The faults are real
in the embedding: the division faults exactly at size zero, and the loop faults
when started from a position beyond the end. -/
theorem operations_total {T U : Type} (conv : T → Double) (func : T → U) (data : List T) :
    (∃ m : Double, (DataProcessor.mk data).average conv = Except.ok m) ∧
      (∃ result : List U, (DataProcessor.mk data).transform func = Except.ok result) ∧
      (∀ (sum : Double) (size : Nat),
        divBySize sum size = Except.error Fault.divByZero ↔ size = 0) ∧
      (∀ (body : List U → T → List U) (it : Nat) (acc : List U),
        data.length < it → rangeFor data body it acc = Except.error Fault.outOfBounds) := by
  refine ⟨?_, ⟨data.map func, transform_eq_map data func⟩, ?_, ?_⟩
  · by_cases h : data = []
    · subst h
      exact ⟨Double.fin 0, average_nil conv⟩
    · exact ⟨_, average_of_ne_nil conv data h⟩
  · intro sum size
    unfold divBySize
    by_cases hs : size = 0
    · simp [hs]
    · simp [hs]
  · intro body it acc hit
    rw [rangeFor]
    have hne : it ≠ data.length := by omega
    have hnlt : ¬ it < data.length := by omega
    simp [hne, hnlt]

/-- C6, as stated, fails: for the `double` vector `{0.1, 0.1, 0.1}` the running sum
is rounded and `average` returns a value strictly above the largest element, which
is also the common value of all elements; for `{0x1p1023, 0x1p1023}` the sum
overflows and `average` returns an infinity. -/
theorem average_between_counterexample :
    (Double.ofRat (1 / 10) = Double.fin (3602879701896397 / 36028797018963968) ∧
      DataProcessor.average (fun d : Double => d)
        (DataProcessor.mk [Double.ofRat (1 / 10), Double.ofRat (1 / 10), Double.ofRat (1 / 10)]) =
        Except.ok (Double.fin (7205759403792795 / 72057594037927936)) ∧
      (3602879701896397 / 36028797018963968 : ℚ) < 7205759403792795 / 72057594037927936) ∧
    (Double.ofRat (2 ^ 1023) = Double.fin (2 ^ 1023) ∧
      DataProcessor.average (fun d : Double => d)
        (DataProcessor.mk [Double.ofRat (2 ^ 1023), Double.ofRat (2 ^ 1023)]) =
        Except.ok (Double.inf false)) := by
  refine ⟨⟨by decide!, ?_, by norm_num⟩, by decide!, ?_⟩
  · rw [average_of_ne_nil _ _ (by simp)]
    exact congrArg Except.ok (by decide!)
  · rw [average_of_ne_nil _ _ (by simp)]
    exact congrArg Except.ok (by decide!)

/-- C6, amended: for every non-empty stored vector whose elements are binary64
values converted exactly and whose running sums and size are exact in binary64,
`average` returns a finite value between the smallest and the largest element, and
when every element equals `c` it returns `c`. -/
theorem average_between_min_max {T : Type} (conv : T → Double) (v : T → ℚ) (data : List T)
    (h : data ≠ [])
    (hconv : ∀ x ∈ data, conv x = Double.fin (v x))
    (hrep : ∀ x ∈ data, Double.ofRat (v x) = Double.fin (v x))
    (hsum : ∀ k : ℕ, k ≤ data.length →
      Double.ofRat (((data.take k).map v).sum) = Double.fin (((data.take k).map v).sum))
    (hsize : Double.ofNat data.length = Double.fin (data.length : ℚ)) :
    ∃ m : ℚ,
      (DataProcessor.mk data).average conv = Except.ok (Double.fin m) ∧
      (data.map v).minimum ≤ (m : WithTop ℚ) ∧
      (m : WithBot ℚ) ≤ (data.map v).maximum ∧
      (∀ c : ℚ, (∀ x ∈ data, v x = c) → m = c) := by
  have hne : data.map v ≠ [] := by simpa using h
  obtain ⟨lo, hlo⟩ := WithTop.ne_top_iff_exists.mp (List.minimum_ne_top_of_ne_nil hne)
  obtain ⟨hi, hhi⟩ := WithBot.ne_bot_iff_exists.mp (List.maximum_ne_bot_of_ne_nil hne)
  have hmin := List.minimum_eq_coe_iff.mp hlo.symm
  have hmax := List.maximum_eq_coe_iff.mp hhi.symm
  have hb := mean_bounds (data.map v) hne lo hi hmin.2 hmax.2
  rw [List.length_map] at hb
  have hrlo : Double.ofRat lo = Double.fin lo := by
    obtain ⟨x, hx, hxv⟩ := List.mem_map.mp hmin.1
    rw [← hxv]
    exact hrep x hx
  have hrhi : Double.ofRat hi = Double.fin hi := by
    obtain ⟨x, hx, hxv⟩ := List.mem_map.mp hmax.1
    rw [← hxv]
    exact hrep x hx
  obtain ⟨hfin, hge, hle⟩ := ofRat_between hrlo hrhi hb.1 hb.2
  refine ⟨roundNearestEven ((data.map v).sum / (data.length : ℚ)), ?_, ?_, ?_, ?_⟩
  · rw [average_of_exact_sums conv v data h hconv hsum hsize, hfin]
  · rw [← hlo]
    exact WithTop.coe_le_coe.mpr hge
  · rw [← hhi]
    exact WithBot.coe_le_coe.mpr hle
  · intro c hc
    have hlc : lo = c := by
      obtain ⟨x, hx, hxv⟩ := List.mem_map.mp hmin.1
      rw [← hxv]
      exact hc x hx
    have hhc : hi = c := by
      obtain ⟨x, hx, hxv⟩ := List.mem_map.mp hmax.1
      rw [← hxv]
      exact hc x hx
    rw [hlc] at hge
    rw [hhc] at hle
    exact le_antisymm hle hge

/-- Instance of amended C6 at the `int` vector `[1, 2, 6]`: the average lies
between `1` and `6`. -/
theorem average_between_min_max_witness :
    ([1, 2, 6] : List ℤ) ≠ [] ∧
      ∃ m : ℚ,
        DataProcessor.average Double.ofInt (DataProcessor.mk [1, 2, 6]) =
          Except.ok (Double.fin m) ∧
        (([1, 2, 6] : List ℤ).map (fun z : ℤ => (z : ℚ))).minimum ≤ (m : WithTop ℚ) ∧
        (m : WithBot ℚ) ≤ (([1, 2, 6] : List ℤ).map (fun z : ℤ => (z : ℚ))).maximum ∧
        (∀ c : ℚ, (∀ x ∈ ([1, 2, 6] : List ℤ), (x : ℚ) = c) → m = c) :=
  ⟨by decide, average_between_min_max Double.ofInt (fun z : ℤ => (z : ℚ)) [1, 2, 6]
    (by decide) (by decide!) (by decide!) (by decide!) (by decide!)⟩

/-- C7: fusion of transforms: transforming by `f`, building a new processor from
the result and transforming by `g` returns the same vector as one transform by the
composition `x ↦ g (f x)`. -/
theorem transform_fusion {T U V : Type} (data : List T) (f : T → U) (g : U → V) :
    ∃ mid : List U,
      (DataProcessor.mk data).transform f = Except.ok mid ∧
      (DataProcessor.mk mid).transform g =
        (DataProcessor.mk data).transform (fun x => g (f x)) := by
  refine ⟨data.map f, transform_eq_map data f, ?_⟩
  rw [transform_eq_map, transform_eq_map, List.map_map]
  rfl

/-- C8: constructor/transform round trip: the constructor stores the input
unchanged, and `transform` with the identity function returns a vector equal to
the input. -/
theorem transform_identity {T : Type} (v : List T) :
    (DataProcessor.mk v).data = v ∧
      (DataProcessor.mk v).transform (fun x => x) = Except.ok v := by
  refine ⟨rfl, ?_⟩
  rw [transform_eq_map]
  simp

/-- C9, as stated, fails.  With unsigned 32-bit elements `{4294967295, 1}` and
`x ↦ 1 * x + 1` the transform wraps around to `{0, 2}`, whose average `1` is not
`1 * 2147483648 + 1`.  With `double` elements `{0.1, 0.2}`, `a = 0.1` and `b = 1`
every operation rounds, and the average of the transformed vector differs from
`a * average + b`, whether that expression is taken exactly or in `double`. -/
theorem average_affine_counterexample :
    ((DataProcessor.mk [4294967295, 1]).transform (fun x : ℕ => (1 * x + 1) % 4294967296) =
        Except.ok [0, 2] ∧
      DataProcessor.average Double.ofNat (DataProcessor.mk [0, 2]) =
        Except.ok (Double.fin 1) ∧
      DataProcessor.average Double.ofNat (DataProcessor.mk [4294967295, 1]) =
        Except.ok (Double.fin 2147483648) ∧
      (1 : ℚ) ≠ 1 * 2147483648 + 1) ∧
    (Double.ofRat (1 / 10) = Double.fin (3602879701896397 / 36028797018963968) ∧
      Double.ofRat (2 / 10) = Double.fin (3602879701896397 / 18014398509481984) ∧
      (DataProcessor.mk [Double.ofRat (1 / 10), Double.ofRat (2 / 10)]).transform
          (fun x => Double.add (Double.mul (Double.ofRat (1 / 10)) x) (Double.fin 1)) =
        Except.ok [Double.fin (4548635623644201 / 4503599627370496),
          Double.fin (2296835809958953 / 2251799813685248)] ∧
      DataProcessor.average (fun d : Double => d)
          (DataProcessor.mk [Double.fin (4548635623644201 / 4503599627370496),
            Double.fin (2296835809958953 / 2251799813685248)]) =
        Except.ok (Double.fin (2285576810890527 / 2251799813685248)) ∧
      DataProcessor.average (fun d : Double => d)
          (DataProcessor.mk [Double.ofRat (1 / 10), Double.ofRat (2 / 10)]) =
        Except.ok (Double.fin (1351079888211149 / 9007199254740992)) ∧
      (2285576810890527 / 2251799813685248 : ℚ) ≠
        3602879701896397 / 36028797018963968 * (1351079888211149 / 9007199254740992) + 1 ∧
      Double.add (Double.mul (Double.ofRat (1 / 10))
          (Double.fin (1351079888211149 / 9007199254740992))) (Double.fin 1) ≠
        Double.fin (2285576810890527 / 2251799813685248)) := by
  refine ⟨⟨?_, ?_, ?_, by norm_num⟩, by decide!, by decide!, ?_, ?_, ?_, by norm_num,
    by decide!⟩
  · rw [transform_eq_map]
    rfl
  · rw [average_of_ne_nil _ _ (by decide)]
    exact congrArg Except.ok (by decide!)
  · rw [average_of_ne_nil _ _ (by decide)]
    exact congrArg Except.ok (by decide!)
  · rw [transform_eq_map]
    exact congrArg Except.ok (by decide!)
  · rw [average_of_ne_nil _ _ (by simp)]
    exact congrArg Except.ok (by decide!)
  · rw [average_of_ne_nil _ _ (by simp)]
    exact congrArg Except.ok (by decide!)

/-- C9, amended: when no wrap-around and no rounding occurs (the results of the function
convert to exactly `a * x + b`, and the element conversions, the running sums of
both vectors, the size and both means are exact in binary64), the average of a
processor built from the transform by `x ↦ a * x + b` equals `a * average + b` on
non-empty data; on empty data both averages are `0`, so the equation holds there
exactly when `b = 0`. -/
theorem average_affine {T U : Type} (convT : T → Double) (convU : U → Double) (v : T → ℚ)
    (func : T → U) (a b : ℚ) (data : List T)
    (hconv : ∀ x ∈ data, convT x = Double.fin (v x))
    (hfunc : ∀ x ∈ data, convU (func x) = Double.fin (a * v x + b))
    (hsum : ∀ k : ℕ, k ≤ data.length →
      Double.ofRat (((data.take k).map v).sum) = Double.fin (((data.take k).map v).sum))
    (hsumU : ∀ k : ℕ, k ≤ data.length →
      Double.ofRat (((data.take k).map (fun x => a * v x + b)).sum) =
        Double.fin (((data.take k).map (fun x => a * v x + b)).sum))
    (hsize : Double.ofNat data.length = Double.fin (data.length : ℚ))
    (hmean : data ≠ [] →
      Double.ofRat ((data.map v).sum / (data.length : ℚ)) =
        Double.fin ((data.map v).sum / (data.length : ℚ)))
    (hmeanU : data ≠ [] →
      Double.ofRat (a * ((data.map v).sum / (data.length : ℚ)) + b) =
        Double.fin (a * ((data.map v).sum / (data.length : ℚ)) + b)) :
    ∃ (mapped : List U) (m mMapped : ℚ),
      (DataProcessor.mk data).transform func = Except.ok mapped ∧
      (DataProcessor.mk data).average convT = Except.ok (Double.fin m) ∧
      (DataProcessor.mk mapped).average convU = Except.ok (Double.fin mMapped) ∧
      (data ≠ [] → mMapped = a * m + b) ∧
      (data = [] → m = 0 ∧ mMapped = 0 ∧ (mMapped = a * m + b ↔ b = 0)) := by
  by_cases h : data = []
  · subst h
    refine ⟨[], 0, 0, transform_eq_map [] _, average_nil _, average_nil _, ?_, ?_⟩
    · intro hne
      exact absurd rfl hne
    · intro _
      refine ⟨rfl, rfl, ?_⟩
      constructor
      · intro hb
        simp at hb
        exact hb.symm
      · intro hb
        simp [hb]
  · have hlen : (data.length : ℚ) ≠ 0 := by
      have : data.length ≠ 0 := fun h0 => h (List.length_eq_zero.mp h0)
      exact_mod_cast this
    have hmapne : data.map func ≠ [] := by simpa using h
    have hfold : (data.map func).foldl (fun sum val => Double.add sum (convU val))
        (Double.fin 0) = Double.fin ((data.map (fun x => a * v x + b)).sum) := by
      rw [List.foldl_map]
      exact foldl_add_exact (fun x => convU (func x)) (fun x => a * v x + b) data hfunc hsumU
    have hmeanEq : (data.map (fun x => a * v x + b)).sum / (data.length : ℚ) =
        a * ((data.map v).sum / (data.length : ℚ)) + b := by
      rw [sum_map_affine]
      field_simp
      ring
    refine ⟨data.map func, (data.map v).sum / (data.length : ℚ),
      a * ((data.map v).sum / (data.length : ℚ)) + b, transform_eq_map data func, ?_, ?_, ?_, ?_⟩
    · rw [average_of_exact_sums convT v data h hconv hsum hsize, hmean h]
    · rw [average_of_ne_nil convU _ hmapne, hfold, List.length_map, hsize]
      simp only [Double.div, hlen, if_false]
      rw [hmeanEq, hmeanU h]
    · intro _
      rfl
    · intro he
      exact absurd he h

/-- Instance of amended C9 at the `int` vector `[1, 3]` with `x ↦ 2 * x + 1`: the
averages are `2` and `5 = 2 * 2 + 1`. -/
theorem average_affine_witness :
    (DataProcessor.mk ([1, 3] : List ℤ)).transform (fun x => 2 * x + 1) = Except.ok [3, 7] ∧
      DataProcessor.average Double.ofInt (DataProcessor.mk [1, 3]) = Except.ok (Double.fin 2) ∧
      DataProcessor.average Double.ofInt (DataProcessor.mk [3, 7]) = Except.ok (Double.fin 5) ∧
      (5 : ℚ) = 2 * 2 + 1 := by
  obtain ⟨mapped, m, mMapped, ht, hm, hmm, hne, _⟩ :=
    average_affine Double.ofInt Double.ofInt (fun z : ℤ => (z : ℚ)) (fun x : ℤ => 2 * x + 1)
      2 1 [1, 3] (by decide!) (by decide!) (by decide!) (by decide!) (by decide!)
      (fun _ => by decide!) (fun _ => by decide!)
  have ht2 : (DataProcessor.mk ([1, 3] : List ℤ)).transform (fun x => 2 * x + 1) =
      Except.ok [3, 7] := by
    rw [transform_eq_map]
    rfl
  have hmapped : mapped = [3, 7] := by
    rw [ht2] at ht
    injection ht with ht
    exact ht.symm
  have hm2 : DataProcessor.average Double.ofInt (DataProcessor.mk [1, 3]) =
      Except.ok (Double.fin 2) := by
    rw [average_of_ne_nil _ _ (by decide)]
    exact congrArg Except.ok (by decide!)
  have hmval : m = 2 := by
    rw [hm2] at hm
    injection hm with hm
    injection hm with hm
    exact hm.symm
  have hrel := hne (by decide)
  rw [hmval] at hrel
  rw [hmapped] at hmm
  refine ⟨ht2, hm2, ?_, by norm_num⟩
  rw [hmm, hrel]
  norm_num

end DataProcessing
